import Mathlib

/-!
Verification of the Availability Engine
(`src/calendar_tools/tools/get_availability.py`).

Time is modelled as `Int` seconds since the Unix epoch (UTC instants).
Calendar days are `Int` day numbers (day 0 = 1970-01-01, a Thursday).
Raw busy-period timestamps, which in the source are RFC3339 strings run
through `_parse_datetime`, are abstracted as `RawTime`: either a parseable
instant or a malformed string carrying its parse-error message.
Timezone conversion (pytz `localize` + `astimezone(utc)`) is abstracted as a
function from naive local seconds to UTC seconds; the absent-timezone branch
of the source uses the identity conversion.
-/

namespace Availability

/-- `date()` of a UTC instant: floor-divide seconds by 86400. -/
def dateOf (t : Int) : Int := t.fdiv 86400

/-- `datetime.combine(d, time(hour = h))` as seconds: day `d` at hour `h`. -/
def dayAt (d h : Int) : Int := d * 86400 + h * 3600

/-- Python `date.weekday()` (Monday = 0): day 0 (1970-01-01) was a Thursday. -/
def weekday (d : Int) : Int := (d + 3).emod 7

/-- `time.replace(hour = h)` succeeds exactly for hours in `[0, 23]`. -/
def hourOk (h : Int) : Prop := 0 ≤ h ∧ h ≤ 23

instance (h : Int) : Decidable (hourOk h) := by unfold hourOk; infer_instance

/-- The inclusive list of calendar days from `d0` to `d1`
    (the `while current_date <= end_date` loop of the source). -/
def genDays (d0 d1 : Int) : List Int :=
  (List.range (d1 + 1 - d0).toNat).map (fun i => d0 + Int.ofNat i)

/-- A raw timestamp: either a parseable instant or a malformed string
    (abstraction of the RFC3339 strings fed to `_parse_datetime`). -/
inductive RawTime where
  | ok (t : Int)
  | bad (msg : String)
deriving DecidableEq, Repr

/-- `_parse_datetime`: a parseable stamp yields its instant, a malformed one
    raises (here: returns) its error message. -/
def parseTime : RawTime → Except String Int
  | .ok t => .ok t
  | .bad m => .error m

/-- One entry of the `busy_periods` list assembled by `get_availability`
    (raw start/end stamps tagged with the contributing calendar id). -/
structure BusyOut where
  start : RawTime
  stop : RawTime
  cal : String
deriving DecidableEq, Repr

/-- An emitted free slot with its derived `duration_minutes`. -/
structure Slot where
  start : Int
  stop : Int
  dur : Int
deriving DecidableEq, Repr

/-- The dictionary returned by `get_availability`. -/
structure AvailResult where
  freeSlots : List Slot
  busyPeriods : List BusyOut
  whStart : Int
  whEnd : Int
  whDays : List Int
  rangeStart : Int
  rangeEnd : Int
deriving DecidableEq, Repr

/-- Errors escaping `get_availability`: the two pre-`try` `ValueError`s, or
    the generic wrapped `Exception`. -/
inductive Err where
  | valErr (msg : String)
  | genErr (msg : String)
deriving DecidableEq, Repr

/-- Python tuple comparison on `(busy_start, busy_end)` pairs
    (lexicographic order used by `overlapping_busy.sort()`). -/
def lexLe (a b : Int × Int) : Prop := a.1 < b.1 ∨ (a.1 = b.1 ∧ a.2 ≤ b.2)

instance : DecidableRel lexLe := by unfold lexLe; infer_instance

instance : IsTotal (Int × Int) lexLe := by
  constructor
  intro a b
  rcases lt_trichotomy a.1 b.1 with h | h | h
  · exact Or.inl (Or.inl h)
  · rcases le_total a.2 b.2 with h2 | h2
    · exact Or.inl (Or.inr ⟨h, h2⟩)
    · exact Or.inr (Or.inr ⟨h.symm, h2⟩)
  · exact Or.inr (Or.inl h)

instance : IsTrans (Int × Int) lexLe := by
  constructor
  rintro a b c (h | ⟨h, h2⟩) (g | ⟨g, g2⟩)
  · exact Or.inl (h.trans g)
  · exact Or.inl (g ▸ h)
  · exact Or.inl (h ▸ g)
  · exact Or.inr ⟨h.trans g, h2.trans g2⟩

instance : IsAntisymm (Int × Int) lexLe := by
  constructor
  rintro ⟨a1, a2⟩ ⟨b1, b2⟩ (h | ⟨h, h2⟩) (g | ⟨g, g2⟩) <;>
    simp_all <;> omega

/-- The cursor walk of `_filter_busy_periods` inside one working slot:
    `we` is the slot end, the first argument is `current_time`, the list the
    sorted overlapping busy periods. -/
def sweep (we : Int) : Int → List (Int × Int) → List (Int × Int)
  | c, [] => if c < we then [(c, we)] else []
  | c, b :: rest =>
      (if c < b.1 then
        (if c < min b.1 we then [(c, min b.1 we)] else [])
      else []) ++ sweep we (max c b.2) rest

/-- The body of `_filter_busy_periods` for a single working slot
    `[ws, we]` against the (already parsed) busy list: select overlapping
    periods, sort them, and run the cursor walk. -/
def filterOne (ws we : Int) (pb : List (Int × Int)) : List (Int × Int) :=
  sweep we ws (List.insertionSort lexLe
    (pb.filter (fun b => decide (b.1 < we) && decide (ws < b.2))))

/-- Parsing of the busy list as performed by `_filter_busy_periods`
    (start then end of each entry, aborting at the first malformed stamp). -/
def parseBusyList : List BusyOut → Except String (List (Int × Int))
  | [] => .ok []
  | b :: bs =>
    match parseTime b.start with
    | .error m => .error m
    | .ok s =>
      match parseTime b.stop with
      | .error m => .error m
      | .ok e =>
        match parseBusyList bs with
        | .error m => .error m
        | .ok rest => .ok ((s, e) :: rest)

/-- `_filter_busy_periods`: if there are no working slots the busy stamps are
    never parsed; otherwise every stamp is parsed (first malformed one
    aborts) and each slot is processed in order. -/
def filterBusyE (wslots : List (Int × Int)) (busy : List BusyOut) :
    Except String (List (Int × Int)) :=
  match wslots with
  | [] => .ok []
  | _ :: _ =>
    match parseBusyList busy with
    | .error m => .error m
    | .ok pb => .ok (wslots.flatMap (fun w => filterOne w.1 w.2 pb))

/-- The day loop of `_generate_working_hours_slots`: for each working day
    build the localized window, convert to UTC (`tzf`), clamp to
    `[st, et]` and keep it only when non-empty.  `time.replace` raises on an
    out-of-range hour, modelled by the error branch. -/
def genSlotsAux (st et hs he : Int) (wd : List Int) (tzf : Int → Int) :
    List Int → Except String (List (Int × Int))
  | [] => .ok []
  | d :: ds =>
    if weekday d ∈ wd then
      if hourOk hs ∧ hourOk he then
        let s := max (tzf (dayAt d hs)) st
        let e := min (tzf (dayAt d he)) et
        match genSlotsAux st et hs he wd tzf ds with
        | .error m => .error m
        | .ok rest => .ok (if s < e then (s, e) :: rest else rest)
      else .error "hour must be in 0..23"
    else genSlotsAux st et hs he wd tzf ds

/-- `_generate_working_hours_slots` over the inclusive day range of the
    requested interval. -/
def genSlotsE (st et hs he : Int) (wd : List Int) (tzf : Int → Int) :
    Except String (List (Int × Int)) :=
  genSlotsAux st et hs he wd tzf (genDays (dateOf st) (dateOf et))

/-- `int((end - start).total_seconds() / 60)`: truncating division of the
    second count by 60. -/
def durMinutes (s e : Int) : Int := (e - s).tdiv 60

/-- `get_availability`.  `resp` abstracts the freebusy response: an
    association list from calendar id to its raw busy list.  `now` is the
    ambient clock used by the `datetime.now` default for `start_time`.
    A timezone, when present, is the local-naive-seconds-to-UTC conversion
    function; its absence means UTC (identity). -/
def getAvailability (resp : List (String × List (RawTime × RawTime)))
    (calendarIds : Option (List String)) (startTime endTime : Option Int)
    (hs he : Int) (wdOpt : Option (List Int)) (tz : Option (Int → Int))
    (now : Int) : Except Err AvailResult :=
  if he ≤ hs then
    .error (.valErr "working_hours_start must be less than working_hours_end")
  else
    let wd := wdOpt.getD [0, 1, 2, 3, 4]
    if _h : ∃ d ∈ wd, d < 0 ∨ 6 < d then
      .error (.valErr "working_days must contain values between 0-6 (Monday=0, Sunday=6)")
    else
      let cids := calendarIds.getD ["primary"]
      let st := startTime.getD (now.fdiv 86400 * 86400)
      let et := endTime.getD (st + 7 * 86400)
      let busy := cids.flatMap (fun cid =>
        ((List.lookup cid resp).getD []).map (fun p => BusyOut.mk p.1 p.2 cid))
      let tzf := tz.getD id
      match genSlotsE st et hs he wd tzf with
      | .error m => .error (.genErr ("Failed to get availability: " ++ m))
      | .ok wslots =>
        match filterBusyE wslots busy with
        | .error m => .error (.genErr ("Failed to get availability: " ++ m))
        | .ok fs =>
          .ok { freeSlots := fs.map (fun p => ⟨p.1, p.2, durMinutes p.1 p.2⟩)
                busyPeriods := busy
                whStart := hs
                whEnd := he
                whDays := wd
                rangeStart := st
                rangeEnd := et }

/-- The clamped working window for one day: the day's localized working
    hours converted to UTC, clamped to the range, or nothing when empty. -/
def mkWindow (st et hs he : Int) (tzf : Int → Int) (d : Int) :
    Option (Int × Int) :=
  let s := max (tzf (dayAt d hs)) st
  let e := min (tzf (dayAt d he)) et
  if s < e then some (s, e) else none

/-- Spec-side working-window generation, following the spec's words: for each
    calendar day of the range whose weekday is a working day, build the
    localized window, convert to UTC, clamp to the range, and drop windows
    with `start >= end`. -/
def specWindows (st et hs he : Int) (wd : List Int) (tzf : Int → Int) :
    List (Int × Int) :=
  ((genDays (dateOf st) (dateOf et)).filter
      (fun d => decide (weekday d ∈ wd))).filterMap
    (mkWindow st et hs he tzf)

/-- Spec-side coalescing of a start-sorted list of busy intervals into a
    disjoint set: adjacent-or-overlapping intervals are merged. -/
def mergeSorted : List (Int × Int) → List (Int × Int)
  | [] => []
  | [b] => [b]
  | b1 :: b2 :: bs =>
    if b2.1 ≤ b1.2 then mergeSorted ((b1.1, max b1.2 b2.2) :: bs)
    else b1 :: mergeSorted (b2 :: bs)
termination_by l => l.length

/-- Spec-side subtraction of a sorted disjoint busy set from the window
    `[cursor, we]`: emit the gap before each busy interval (clipped to the
    window) and the final gap after the last one. -/
def specSubtract (we : Int) : Int → List (Int × Int) → List (Int × Int)
  | c, [] => if c < we then [(c, we)] else []
  | c, b :: rest =>
      (if c < min b.1 we then [(c, min b.1 we)] else []) ++
        specSubtract we (max c b.2) rest

/-- Spec-side free-slot computation for one window: merge all busy periods
    (after sorting) into a disjoint set, then subtract from the window. -/
def specMergeSubtract (ws we : Int) (pb : List (Int × Int)) :
    List (Int × Int) :=
  specSubtract we ws (mergeSorted (List.insertionSort lexLe pb))

/-! ### Basic properties of the cursor walk -/

/-- Every slot emitted by the cursor walk starts no earlier than the cursor. -/
theorem sweep_start_ge (we : Int) :
    ∀ (l : List (Int × Int)) (c : Int), ∀ f ∈ sweep we c l, c ≤ f.1 := by
  intro l
  induction l with
  | nil =>
    intro c f hf
    simp only [sweep] at hf
    split at hf
    · simp only [List.mem_singleton] at hf
      simp [hf]
    · cases hf
  | cons b rest ih =>
    intro c f hf
    simp only [sweep, List.mem_append] at hf
    rcases hf with hf | hf
    · split at hf
      · split at hf
        · simp only [List.mem_singleton] at hf
          simp [hf]
        · cases hf
      · cases hf
    · exact le_trans (le_max_left c b.2) (ih (max c b.2) f hf)

/-- Every slot emitted by the cursor walk ends no later than the window end. -/
theorem sweep_end_le (we : Int) :
    ∀ (l : List (Int × Int)) (c : Int), ∀ f ∈ sweep we c l, f.2 ≤ we := by
  intro l
  induction l with
  | nil =>
    intro c f hf
    simp only [sweep] at hf
    split at hf
    · simp only [List.mem_singleton] at hf
      simp [hf]
    · cases hf
  | cons b rest ih =>
    intro c f hf
    simp only [sweep, List.mem_append] at hf
    rcases hf with hf | hf
    · split at hf
      · split at hf
        · simp only [List.mem_singleton] at hf
          simp [hf, min_le_right]
        · cases hf
      · cases hf
    · exact ih (max c b.2) f hf

/-- Every slot emitted by the cursor walk is non-empty: `start < end`. -/
theorem sweep_pos (we : Int) :
    ∀ (l : List (Int × Int)) (c : Int), ∀ f ∈ sweep we c l, f.1 < f.2 := by
  intro l
  induction l with
  | nil =>
    intro c f hf
    simp only [sweep] at hf
    split at hf
    · simp only [List.mem_singleton] at hf
      subst hf
      simpa using by assumption
    · cases hf
  | cons b rest ih =>
    intro c f hf
    simp only [sweep, List.mem_append] at hf
    rcases hf with hf | hf
    · split at hf
      · split at hf
        · simp only [List.mem_singleton] at hf
          subst hf
          rename_i hm
          simpa using hm
        · cases hf
      · cases hf
    · exact ih (max c b.2) f hf

/-- Against a list of busy periods sorted by start, no emitted slot meets any
    busy period of the list: each emitted slot ends before the busy period
    starts or starts after it ends. -/
theorem sweep_no_overlap (we : Int) :
    ∀ (l : List (Int × Int)) (c : Int),
      l.Pairwise (fun a b => a.1 ≤ b.1) →
      ∀ f ∈ sweep we c l, ∀ b ∈ l, f.2 ≤ b.1 ∨ b.2 ≤ f.1 := by
  intro l
  induction l with
  | nil =>
    intro c _ f _ b hb
    cases hb
  | cons b0 rest ih =>
    intro c hsort f hf b hb
    rw [List.pairwise_cons] at hsort
    simp only [sweep, List.mem_append] at hf
    rcases hf with hf | hf
    · have hfe : f = (c, min b0.1 we) := by
        split at hf
        · split at hf
          · simpa using hf
          · cases hf
        · cases hf
      rcases List.mem_cons.mp hb with hb0 | hbr
      · subst hb0
        exact Or.inl (by simp [hfe, min_le_left])
      · refine Or.inl ?_
        have : b0.1 ≤ b.1 := hsort.1 b hbr
        calc f.2 = min b0.1 we := by simp [hfe]
          _ ≤ b0.1 := min_le_left _ _
          _ ≤ b.1 := this
    · rcases List.mem_cons.mp hb with hb0 | hbr
      · subst hb0
        refine Or.inr ?_
        have h1 : max c b.2 ≤ f.1 := sweep_start_ge we rest (max c b.2) f hf
        exact le_trans (le_max_right c b.2) h1
      · exact ih (max c b0.2) hsort.2 f hf b hbr

/-- Every instant of the window at or beyond the cursor is either inside an
    emitted slot or inside some busy period of the list. -/
theorem sweep_covers (we : Int) :
    ∀ (l : List (Int × Int)) (c t : Int), c ≤ t → t < we →
      (∃ f ∈ sweep we c l, f.1 ≤ t ∧ t < f.2) ∨
      (∃ b ∈ l, b.1 ≤ t ∧ t < b.2) := by
  intro l
  induction l with
  | nil =>
    intro c t hct htw
    refine Or.inl ⟨(c, we), ?_, hct, htw⟩
    simp [sweep, lt_of_le_of_lt hct htw]
  | cons b0 rest ih =>
    intro c t hct htw
    by_cases hmin : t < min b0.1 we
    · have hcb : c < b0.1 := lt_of_le_of_lt hct (lt_min_iff.mp hmin).1
      have hcm : c < min b0.1 we := lt_of_le_of_lt hct hmin
      refine Or.inl ⟨(c, min b0.1 we), ?_, hct, hmin⟩
      simp [sweep, hcb, hcm]
    · push_neg at hmin
      have htb : b0.1 ≤ t := by
        rcases le_or_lt b0.1 we with h | h
        · simpa [min_eq_left h] using hmin
        · rw [min_eq_right (le_of_lt h)] at hmin
          exact absurd htw (not_lt.mpr hmin)
      by_cases htb2 : t < b0.2
      · exact Or.inr ⟨b0, List.mem_cons_self _ _, htb, htb2⟩
      · push_neg at htb2
        have hc' : max c b0.2 ≤ t := max_le hct htb2
        rcases ih (max c b0.2) t hc' htw with ⟨f, hf, hft⟩ | ⟨b, hb, hbt⟩
        · exact Or.inl ⟨f, by simp [sweep, List.mem_append, Or.inr hf], hft⟩
        · exact Or.inr ⟨b, List.mem_cons_of_mem _ hb, hbt⟩

/-- When every busy period of the list satisfies `start <= end`, the emitted
    slots are adjacent-ordered: each ends no later than the next starts. -/
theorem sweep_chain (we : Int) :
    ∀ (l : List (Int × Int)) (c : Int), (∀ b ∈ l, b.1 ≤ b.2) →
      List.Chain' (fun f g : Int × Int => f.2 ≤ g.1) (sweep we c l) := by
  intro l
  induction l with
  | nil =>
    intro c _
    simp only [sweep]
    split
    · simp
    · simp
  | cons b0 rest ih =>
    intro c hval
    have hrest := ih (max c b0.2) (fun b hb => hval b (List.mem_cons_of_mem _ hb))
    simp only [sweep]
    split
    · split
      · rename_i hcb hcm
        rw [List.chain'_append]
        refine ⟨List.chain'_singleton _, hrest, ?_⟩
        intro x hx y hy
        have hx' : x = (c, min b0.1 we) := by
          have := hx
          simp only [List.getLast?_singleton, Option.mem_def, Option.some_inj] at this
          exact this.symm
        subst hx'
        have hy' : y ∈ sweep we (max c b0.2) rest :=
          List.mem_of_mem_head? hy
        have h1 : max c b0.2 ≤ y.1 := sweep_start_ge we rest _ y hy'
        have h2 : b0.2 ≤ max c b0.2 := le_max_right _ _
        calc (c, min b0.1 we).2 ≤ b0.1 := min_le_left _ _
          _ ≤ b0.2 := hval b0 (List.mem_cons_self _ _)
          _ ≤ y.1 := le_trans h2 h1
      · simpa using hrest
    · simpa using hrest

/-! ### Equivalence with the merge-then-subtract formulation -/

/-- The cursor walk and the spec-side subtraction agree on every list: their
    emission conditions are equivalent. -/
theorem sweep_eq_specSubtract (we : Int) :
    ∀ (l : List (Int × Int)) (c : Int), sweep we c l = specSubtract we c l := by
  intro l
  induction l with
  | nil => intro c; rfl
  | cons b rest ih =>
    intro c
    simp only [sweep, specSubtract, ih]
    congr 1
    by_cases hm : c < min b.1 we
    · have hb : c < b.1 := lt_of_lt_of_le hm (min_le_left _ _)
      simp [hb, hm]
    · by_cases hb : c < b.1 <;> simp [hb, hm]

/-- Once the cursor has reached the window end, nothing further is emitted. -/
theorem sweep_nil_of_ge (we : Int) :
    ∀ (l : List (Int × Int)) (c : Int), we ≤ c → sweep we c l = [] := by
  intro l
  induction l with
  | nil =>
    intro c hc
    simp [sweep, not_lt.mpr hc]
  | cons b rest ih =>
    intro c hc
    have h1 : ¬ c < min b.1 we := not_lt.mpr (le_trans (min_le_right _ _) hc)
    have h2 : we ≤ max c b.2 := le_trans hc (le_max_left _ _)
    by_cases hb : c < b.1 <;> simp [sweep, hb, h1, ih _ h2]

/-- Coalescing a start-sorted busy list does not change the cursor walk:
    the `max` cursor advance performs the merge implicitly. -/
theorem sweep_mergeSorted (we : Int) :
    ∀ (l : List (Int × Int)), l.Pairwise (fun a b => a.1 ≤ b.1) →
      ∀ (c : Int), sweep we c (mergeSorted l) = sweep we c l := by
  intro l
  induction l using mergeSorted.induct with
  | case1 => intro _ c; rw [mergeSorted]
  | case2 b => intro _ c; rw [mergeSorted]
  | case3 b1 b2 bs hover ih =>
    intro hsort c
    rw [List.pairwise_cons] at hsort
    obtain ⟨h1, hsort2⟩ := hsort
    rw [List.pairwise_cons] at hsort2
    obtain ⟨h2, hbs⟩ := hsort2
    have hsort' : ((b1.1, max b1.2 b2.2) :: bs).Pairwise
        (fun a b : Int × Int => a.1 ≤ b.1) := by
      rw [List.pairwise_cons]
      exact ⟨fun x hx => h1 x (List.mem_cons_of_mem _ hx), hbs⟩
    rw [mergeSorted, if_pos hover, ih hsort' c]
    have hskip : ¬ max c b1.2 < b2.1 :=
      not_lt.mpr (le_trans hover (le_max_right _ _))
    simp only [sweep]
    rw [if_neg hskip, List.nil_append, max_assoc]
  | case4 b1 b2 bs hover ih =>
    intro hsort c
    rw [List.pairwise_cons] at hsort
    rw [mergeSorted, if_neg hover]
    have hih := ih hsort.2 (max c b1.2)
    simp only [sweep]
    simp only [sweep] at hih
    rw [hih]

/-- Dropping the busy periods that do not overlap the window `[ws, we]` does
    not change the cursor walk, for a start-sorted list of valid intervals
    and a cursor at or beyond the window start. -/
theorem sweep_filter_overlap (ws we : Int) :
    ∀ (l : List (Int × Int)), l.Pairwise (fun a b => a.1 ≤ b.1) →
      (∀ b ∈ l, b.1 ≤ b.2) → ∀ (c : Int), ws ≤ c →
      sweep we c (l.filter (fun b => decide (b.1 < we) && decide (ws < b.2))) =
        sweep we c l := by
  intro l
  induction l with
  | nil => intro _ _ c _; rfl
  | cons b rest ih =>
    intro hsort hval c hc
    rw [List.pairwise_cons] at hsort
    by_cases hov : b.1 < we ∧ ws < b.2
    · rw [List.filter_cons_of_pos (by simpa using hov)]
      simp only [sweep]
      congr 1
      exact ih hsort.2 (fun x hx => hval x (List.mem_cons_of_mem _ hx))
        (max c b.2) (le_trans hc (le_max_left _ _))
    · rw [List.filter_cons_of_neg (by simpa using hov)]
      rcases not_and_or.mp hov with hbefore | hafter
      · push_neg at hbefore
        -- b starts at or after the window end: the remaining sorted busy
        -- periods are all filtered out too, and both sides emit only the
        -- final gap.
        have hrest_out : rest.filter
            (fun x => decide (x.1 < we) && decide (ws < x.2)) = [] := by
          rw [List.filter_eq_nil_iff]
          intro x hx
          have : b.1 ≤ x.1 := hsort.1 x hx
          simp [not_lt.mpr (le_trans hbefore this)]
        rw [hrest_out]
        have hmin : min b.1 we = we := min_eq_right hbefore
        have hcur : we ≤ max c b.2 :=
          le_trans (le_trans hbefore (hval b (List.mem_cons_self _ _)))
            (le_max_right _ _)
        simp only [sweep, hmin, sweep_nil_of_ge we rest _ hcur, List.append_nil]
        by_cases hcw : c < we
        · have : c < b.1 := lt_of_lt_of_le hcw hbefore
          simp [this, hcw]
        · by_cases hcb : c < b.1 <;> simp [hcb, hcw]
      · push_neg at hafter
        -- b ends at or before the window start: it is a no-op for the walk.
        have hbc : b.2 ≤ c := le_trans hafter hc
        have hnoemit : ¬ c < b.1 :=
          not_lt.mpr (le_trans (le_trans (hval b (List.mem_cons_self _ _)) hbc)
            (le_refl c))
        have hcur : max c b.2 = c := max_eq_left hbc
        simp only [sweep, hnoemit, if_neg, List.nil_append, hcur]
        exact ih hsort.2 (fun x hx => hval x (List.mem_cons_of_mem _ hx)) c hc

/-- Sorting commutes with the overlap filter: filtering then sorting equals
    sorting then filtering. -/
theorem insertionSort_filter_comm (p : Int × Int → Bool)
    (l : List (Int × Int)) :
    List.insertionSort lexLe (l.filter p) =
      (List.insertionSort lexLe l).filter p := by
  have hperm : (List.insertionSort lexLe (l.filter p)).Perm
      ((List.insertionSort lexLe l).filter p) :=
    (List.perm_insertionSort lexLe _).trans
      (((List.perm_insertionSort lexLe l).symm).filter p)
  exact List.eq_of_perm_of_sorted hperm
    (List.sorted_insertionSort lexLe _)
    ((List.sorted_insertionSort lexLe l).filter p)

/-- The sorted overlapping-busy list is sorted by start time. -/
theorem insertionSort_pairwise_start (pb : List (Int × Int)) :
    (List.insertionSort lexLe pb).Pairwise (fun a b => a.1 ≤ b.1) :=
  (List.sorted_insertionSort lexLe pb).imp (fun h => by
    rcases h with h | ⟨h, _⟩
    · exact le_of_lt h
    · exact le_of_eq h)

/-- Membership transfer through the sort. -/
theorem mem_insertionSort_iff (pb : List (Int × Int)) (b : Int × Int) :
    b ∈ List.insertionSort lexLe pb ↔ b ∈ pb :=
  (List.perm_insertionSort lexLe pb).mem_iff

/-- The single-pass cursor walk of `_filter_busy_periods` computes, for each
    window, exactly the subtraction of the merged busy set from the window,
    provided the busy intervals are well-formed (`start <= end`). -/
theorem filterOne_eq_specMergeSubtract (ws we : Int) (pb : List (Int × Int))
    (hval : ∀ b ∈ pb, b.1 ≤ b.2) :
    filterOne ws we pb = specMergeSubtract ws we pb := by
  have hval' : ∀ b ∈ List.insertionSort lexLe pb, b.1 ≤ b.2 := by
    intro b hb
    exact hval b ((mem_insertionSort_iff pb b).mp hb)
  have hsorted := insertionSort_pairwise_start pb
  calc filterOne ws we pb
      = sweep we ws ((List.insertionSort lexLe pb).filter
          (fun b => decide (b.1 < we) && decide (ws < b.2))) := by
        rw [filterOne, insertionSort_filter_comm]
    _ = sweep we ws (List.insertionSort lexLe pb) :=
        sweep_filter_overlap ws we _ hsorted hval' ws le_rfl
    _ = sweep we ws (mergeSorted (List.insertionSort lexLe pb)) :=
        (sweep_mergeSorted we _ hsorted ws).symm
    _ = specMergeSubtract ws we pb :=
        sweep_eq_specSubtract we _ ws

/-! ### Working-window generation -/

/-- The inclusive day list is strictly increasing. -/
theorem genDays_pairwise (d0 d1 : Int) :
    (genDays d0 d1).Pairwise (fun a b => a < b) := by
  unfold genDays
  refine List.Pairwise.map (fun i => d0 + Int.ofNat i)
    (fun a b (hab : a < b) => ?_) (List.pairwise_lt_range _)
  exact add_lt_add_left (Int.ofNat_lt.mpr hab) d0

/-- When the generator succeeds, its output is exactly the spec-side window
    list: one clamped, non-empty window per working day of the range. -/
theorem genSlotsAux_ok_eq (st et hs he : Int) (wd : List Int)
    (tzf : Int → Int) :
    ∀ (ds : List Int) (l : List (Int × Int)),
      genSlotsAux st et hs he wd tzf ds = .ok l →
      l = (ds.filter (fun d => decide (weekday d ∈ wd))).filterMap
        (mkWindow st et hs he tzf) := by
  intro ds
  induction ds with
  | nil =>
    intro l hl
    simp only [genSlotsAux] at hl
    cases hl
    rfl
  | cons d ds ih =>
    intro l hl
    simp only [genSlotsAux] at hl
    by_cases hwd : weekday d ∈ wd
    · rw [if_pos hwd] at hl
      by_cases hho : hourOk hs ∧ hourOk he
      · rw [if_pos hho] at hl
        rcases hrec : genSlotsAux st et hs he wd tzf ds with m | rest
        · rw [hrec] at hl
          cases hl
        · rw [hrec] at hl
          simp only [Except.ok.injEq] at hl
          subst hl
          rw [List.filter_cons_of_pos (by simpa using hwd),
            List.filterMap_cons, ih rest hrec]
          by_cases hlt : max (tzf (dayAt d hs)) st < min (tzf (dayAt d he)) et
          · simp [mkWindow, hlt]
          · simp [mkWindow, hlt]
      · rw [if_neg hho] at hl
        cases hl
    · rw [if_neg hwd] at hl
      rw [List.filter_cons_of_neg (by simpa using hwd)]
      exact ih l hl

/-- Every window produced by a successful generator run comes from a working
    day of the processed day list, as the clamp of that day's localized
    working hours, and is non-empty. -/
theorem genSlotsAux_ok_mem (st et hs he : Int) (wd : List Int)
    (tzf : Int → Int) (ds : List Int) (l : List (Int × Int))
    (hok : genSlotsAux st et hs he wd tzf ds = .ok l) :
    ∀ w ∈ l, ∃ d ∈ ds, weekday d ∈ wd ∧
      w = (max (tzf (dayAt d hs)) st, min (tzf (dayAt d he)) et) ∧
      w.1 < w.2 := by
  intro w hw
  rw [genSlotsAux_ok_eq st et hs he wd tzf ds l hok] at hw
  simp only [List.mem_filterMap, List.mem_filter] at hw
  obtain ⟨d, ⟨hd, hwd⟩, hmk⟩ := hw
  refine ⟨d, hd, by simpa using hwd, ?_⟩
  simp only [mkWindow] at hmk
  by_cases hlt : max (tzf (dayAt d hs)) st < min (tzf (dayAt d he)) et
  · rw [if_pos hlt] at hmk
    cases hmk
    exact ⟨rfl, hlt⟩
  · rw [if_neg hlt] at hmk
    cases hmk

/-- When the timezone conversion is monotone, the generated windows are
    chronologically ordered and mutually non-overlapping: each window ends
    no later than every later window starts.  (An hour inside `[0, 23]` ends
    strictly before the next day's hours begin.) -/
theorem genSlotsAux_ok_pairwise (st et hs he : Int) (wd : List Int)
    (tzf : Int → Int) (hmono : Monotone tzf) :
    ∀ (ds : List Int) (l : List (Int × Int)),
      ds.Pairwise (fun a b => a < b) →
      genSlotsAux st et hs he wd tzf ds = .ok l →
      l.Pairwise (fun a b => a.2 ≤ b.1) := by
  intro ds
  induction ds with
  | nil =>
    intro l _ hl
    simp only [genSlotsAux] at hl
    cases hl
    exact List.Pairwise.nil
  | cons d ds ih =>
    intro l hpw hl
    rw [List.pairwise_cons] at hpw
    simp only [genSlotsAux] at hl
    by_cases hwd : weekday d ∈ wd
    · rw [if_pos hwd] at hl
      by_cases hho : hourOk hs ∧ hourOk he
      · rw [if_pos hho] at hl
        rcases hrec : genSlotsAux st et hs he wd tzf ds with m | rest
        · rw [hrec] at hl
          cases hl
        · rw [hrec] at hl
          simp only [Except.ok.injEq] at hl
          subst hl
          have hrest := ih rest hpw.2 hrec
          by_cases hlt : max (tzf (dayAt d hs)) st < min (tzf (dayAt d he)) et
          · rw [if_pos hlt]
            rw [List.pairwise_cons]
            refine ⟨?_, hrest⟩
            intro w hw
            obtain ⟨d', hd', _, hweq, _⟩ :=
              genSlotsAux_ok_mem st et hs he wd tzf ds rest hrec w hw
            have hdd : d < d' := hpw.1 d' hd'
            have hday : dayAt d he ≤ dayAt d' hs := by
              unfold dayAt
              have h1 : he ≤ 23 := hho.2.2
              have h2 : 0 ≤ hs := hho.1.1
              nlinarith [hdd]
            have htz : tzf (dayAt d he) ≤ tzf (dayAt d' hs) := hmono hday
            calc (max (tzf (dayAt d hs)) st, min (tzf (dayAt d he)) et).2
                ≤ tzf (dayAt d he) := min_le_left _ _
              _ ≤ tzf (dayAt d' hs) := htz
              _ ≤ max (tzf (dayAt d' hs)) st := le_max_left _ _
              _ = w.1 := by rw [hweq]
          · rw [if_neg hlt]
            exact hrest
      · rw [if_neg hho] at hl
        cases hl
    · rw [if_neg hwd] at hl
      exact ih l hpw.2 hl

/-- Concatenating per-window slot lists in window order preserves the
    adjacent-ordering of slots, when windows are ordered and every slot lies
    inside its window. -/
theorem chain'_flatMap_windows (f : Int × Int → List (Int × Int)) :
    ∀ (l : List (Int × Int)),
      l.Pairwise (fun a b => a.2 ≤ b.1) →
      (∀ w ∈ l, List.Chain' (fun x y : Int × Int => x.2 ≤ y.1) (f w)) →
      (∀ w ∈ l, ∀ x ∈ f w, w.1 ≤ x.1 ∧ x.2 ≤ w.2) →
      List.Chain' (fun x y : Int × Int => x.2 ≤ y.1) (l.flatMap f) := by
  intro l
  induction l with
  | nil => intro _ _ _; simp
  | cons w rest ih =>
    intro hpw hchain hbound
    rw [List.pairwise_cons] at hpw
    rw [List.flatMap_cons, List.chain'_append]
    refine ⟨hchain w (List.mem_cons_self _ _),
      ih hpw.2 (fun v hv => hchain v (List.mem_cons_of_mem _ hv))
        (fun v hv => hbound v (List.mem_cons_of_mem _ hv)), ?_⟩
    intro x hx y hy
    have hxm : x ∈ f w := List.mem_of_mem_getLast? hx
    have hym : y ∈ rest.flatMap f := List.mem_of_mem_head? hy
    obtain ⟨w', hw', hyw'⟩ := List.mem_flatMap.mp hym
    calc x.2 ≤ w.2 := (hbound w (List.mem_cons_self _ _) x hxm).2
      _ ≤ w'.1 := hpw.1 w' hw'
      _ ≤ y.1 := (hbound w' (List.mem_cons_of_mem _ hw') y hyw').1

/-! ### Parsing and orchestration lemmas -/

/-- Every parsed busy pair comes from an entry of the raw busy list whose two
    stamps parse to exactly those instants. -/
theorem parseBusyList_ok_mem :
    ∀ (busy : List BusyOut) (pb : List (Int × Int)),
      parseBusyList busy = .ok pb →
      ∀ p ∈ pb, ∃ bo ∈ busy, bo.start = .ok p.1 ∧ bo.stop = .ok p.2 := by
  intro busy
  induction busy with
  | nil =>
    intro pb h p hp
    simp only [parseBusyList] at h
    cases h
    cases hp
  | cons bo bos ih =>
    intro pb h p hp
    simp only [parseBusyList] at h
    rcases hs : parseTime bo.start with m | s
    · rw [hs] at h; cases h
    · rw [hs] at h
      rcases he : parseTime bo.stop with m | e
      · rw [he] at h; cases h
      · rw [he] at h
        rcases hr : parseBusyList bos with m | rest
        · rw [hr] at h; cases h
        · rw [hr] at h
          simp only [Except.ok.injEq] at h
          subst h
          rcases List.mem_cons.mp hp with hp0 | hpr
          · subst hp0
            refine ⟨bo, List.mem_cons_self _ _, ?_, ?_⟩
            · cases hb : bo.start with
              | ok t => rw [hb] at hs; cases hs; rfl
              | bad m => rw [hb] at hs; cases hs
            · cases hb : bo.stop with
              | ok t => rw [hb] at he; cases he; rfl
              | bad m => rw [hb] at he; cases he
          · obtain ⟨bo', hbo', hse⟩ := ih rest hr p hpr
            exact ⟨bo', List.mem_cons_of_mem _ hbo', hse⟩

/-- When every raw stamp is parseable, busy-list parsing succeeds. -/
theorem parseBusyList_ok_of_parseable :
    ∀ (busy : List BusyOut),
      (∀ bo ∈ busy, (∃ a, bo.start = .ok a) ∧ (∃ b, bo.stop = .ok b)) →
      ∃ pb, parseBusyList busy = .ok pb := by
  intro busy
  induction busy with
  | nil => intro _; exact ⟨[], rfl⟩
  | cons bo bos ih =>
    intro hall
    obtain ⟨⟨a, ha⟩, ⟨b, hb⟩⟩ := hall bo (List.mem_cons_self _ _)
    obtain ⟨rest, hrest⟩ := ih (fun x hx => hall x (List.mem_cons_of_mem _ hx))
    refine ⟨(a, b) :: rest, ?_⟩
    simp only [parseBusyList, ha, hb, parseTime, hrest]

/-- With both hours in `[0, 23]`, window generation never fails. -/
theorem genSlotsAux_ok_of_hourOk (st et hs he : Int) (wd : List Int)
    (tzf : Int → Int) (hhs : hourOk hs) (hhe : hourOk he) :
    ∀ (ds : List Int), ∃ l, genSlotsAux st et hs he wd tzf ds = .ok l := by
  intro ds
  induction ds with
  | nil => exact ⟨[], rfl⟩
  | cons d ds ih =>
    obtain ⟨rest, hrest⟩ := ih
    by_cases hwd : weekday d ∈ wd
    · refine ⟨if max (tzf (dayAt d hs)) st < min (tzf (dayAt d he)) et then
        (max (tzf (dayAt d hs)) st, min (tzf (dayAt d he)) et) :: rest
        else rest, ?_⟩
      simp only [genSlotsAux, if_pos hwd, if_pos (And.intro hhs hhe), hrest]
    · refine ⟨rest, ?_⟩
      simp only [genSlotsAux, if_neg hwd, hrest]

/-- The raw busy list assembled from the freebusy response: every requested
    calendar's busy entries, tagged with the calendar id, in order. -/
def collectBusy (resp : List (String × List (RawTime × RawTime)))
    (cids : List String) : List BusyOut :=
  cids.flatMap (fun cid =>
    ((List.lookup cid resp).getD []).map (fun p => BusyOut.mk p.1 p.2 cid))

/-- `collectBusy` is definitionally the busy-extraction loop of
    `get_availability`. -/
theorem collectBusy_def (resp : List (String × List (RawTime × RawTime)))
    (cids : List String) :
    collectBusy resp cids = cids.flatMap (fun cid =>
      ((List.lookup cid resp).getD []).map (fun p => BusyOut.mk p.1 p.2 cid)) :=
  rfl

/-- Inversion of a successful `get_availability` run: validation passed, the
    generator and the busy filter succeeded, and the result fields are the
    computed free slots (with durations), the echoed busy list and the
    effective configuration. -/
theorem getAvailability_ok_inv (resp : List (String × List (RawTime × RawTime)))
    (calendarIds : Option (List String)) (startTime endTime : Option Int)
    (hs he : Int) (wdOpt : Option (List Int)) (tz : Option (Int → Int))
    (now : Int) (r : AvailResult)
    (h : getAvailability resp calendarIds startTime endTime hs he wdOpt tz now
      = .ok r) :
    hs < he ∧ (∀ d ∈ wdOpt.getD [0, 1, 2, 3, 4], 0 ≤ d ∧ d ≤ 6) ∧
    ∃ wslots fs,
      genSlotsE (startTime.getD (now.fdiv 86400 * 86400))
        (endTime.getD (startTime.getD (now.fdiv 86400 * 86400) + 7 * 86400))
        hs he (wdOpt.getD [0, 1, 2, 3, 4]) (tz.getD id) = .ok wslots ∧
      filterBusyE wslots
        (collectBusy resp (calendarIds.getD ["primary"])) = .ok fs ∧
      r = { freeSlots := fs.map (fun p => ⟨p.1, p.2, durMinutes p.1 p.2⟩)
            busyPeriods := collectBusy resp (calendarIds.getD ["primary"])
            whStart := hs
            whEnd := he
            whDays := wdOpt.getD [0, 1, 2, 3, 4]
            rangeStart := startTime.getD (now.fdiv 86400 * 86400)
            rangeEnd :=
              endTime.getD (startTime.getD (now.fdiv 86400 * 86400) + 7 * 86400) } := by
  simp only [getAvailability] at h
  split at h
  · cases h
  · rename_i hvh
    split at h
    · cases h
    · rename_i hwd
      refine ⟨lt_of_not_le hvh, ?_, ?_⟩
      · intro d hd
        push_neg at hwd
        have := hwd d hd
        omega
      · split at h
        · cases h
        · rename_i wslots hgen
          split at h
          · cases h
          · rename_i fs hfil
            simp only [Except.ok.injEq] at h
            exact ⟨wslots, fs, hgen, hfil, h.symm⟩

/-- Every collected busy entry originates in the response data of one of the
    requested calendars. -/
theorem collectBusy_mem (resp : List (String × List (RawTime × RawTime)))
    (cids : List String) (bo : BusyOut) (h : bo ∈ collectBusy resp cids) :
    ∃ cid ∈ cids, ∃ p ∈ (List.lookup cid resp).getD [],
      bo = BusyOut.mk p.1 p.2 cid := by
  simp only [collectBusy, List.mem_flatMap, List.mem_map] at h
  obtain ⟨cid, hcid, p, hp, hbo⟩ := h
  exact ⟨cid, hcid, p, hp, hbo.symm⟩

/-- Inversion of a successful `_filter_busy_periods` run: either there were
    no working slots (and the busy stamps were never parsed), or parsing
    succeeded and each slot was processed in order. -/
theorem filterBusyE_ok_inv (wslots : List (Int × Int)) (busy : List BusyOut)
    (fs : List (Int × Int)) (h : filterBusyE wslots busy = .ok fs) :
    (wslots = [] ∧ fs = []) ∨
    ∃ pb, parseBusyList busy = .ok pb ∧
      fs = wslots.flatMap (fun w => filterOne w.1 w.2 pb) := by
  cases wslots with
  | nil =>
    simp only [filterBusyE] at h
    cases h
    exact Or.inl ⟨rfl, rfl⟩
  | cons w ws =>
    simp only [filterBusyE] at h
    rcases hp : parseBusyList busy with m | pb
    · rw [hp] at h; cases h
    · rw [hp] at h
      simp only [Except.ok.injEq] at h
      exact Or.inr ⟨pb, rfl, h.symm⟩

/-! ### Claims -/

/-- C1.  No-overlap: for every working window `[ws, we]` and every busy list,
    every emitted free slot is disjoint from every busy period overlapping
    the window — the slot ends at or before the busy period starts, or
    starts at or after it ends. -/
theorem C1_no_overlap (ws we : Int) (pb : List (Int × Int))
    (f b : Int × Int) (hf : f ∈ filterOne ws we pb) (hb : b ∈ pb)
    (hb1 : b.1 < we) (hb2 : ws < b.2) :
    f.2 ≤ b.1 ∨ b.2 ≤ f.1 := by
  have hbmem : b ∈ List.insertionSort lexLe
      (pb.filter (fun x => decide (x.1 < we) && decide (ws < x.2))) := by
    rw [mem_insertionSort_iff]
    rw [List.mem_filter]
    exact ⟨hb, by simp [hb1, hb2]⟩
  exact sweep_no_overlap we _ ws (insertionSort_pairwise_start _) f hf b hbmem

theorem C1_no_overlap_witness :
    ((378000, 381600) ∈ filterOne 378000 406800 [(381600, 385200)] ∧
      (381600 : Int) < 406800 ∧ (378000 : Int) < 385200) ∧
    ((378000, 381600).2 ≤ (381600 : Int) ∨ (385200 : Int) ≤ (378000, 381600).1) :=
  ⟨⟨by decide, by decide, by decide⟩,
    C1_no_overlap 378000 406800 [(381600, 385200)] (378000, 381600)
      (381600, 385200) (by decide) (by decide) (by decide) (by decide)⟩

/-- C2.  Completeness: every instant of the working window lies in an emitted
    free slot or in a busy period, and every emitted free slot lies within
    the window. -/
theorem C2_completeness (ws we : Int) (pb : List (Int × Int)) :
    (∀ t : Int, ws ≤ t → t < we →
      (∃ f ∈ filterOne ws we pb, f.1 ≤ t ∧ t < f.2) ∨
      (∃ b ∈ pb, b.1 ≤ t ∧ t < b.2)) ∧
    (∀ f ∈ filterOne ws we pb, ws ≤ f.1 ∧ f.2 ≤ we) := by
  constructor
  · intro t hws hwe
    rcases sweep_covers we
        (List.insertionSort lexLe
          (pb.filter (fun x => decide (x.1 < we) && decide (ws < x.2))))
        ws t hws hwe with ⟨f, hf, hft⟩ | ⟨b, hb, hbt⟩
    · exact Or.inl ⟨f, hf, hft⟩
    · refine Or.inr ⟨b, ?_, hbt⟩
      rw [mem_insertionSort_iff] at hb
      exact (List.mem_filter.mp hb).1
  · intro f hf
    exact ⟨sweep_start_ge we _ ws f hf, sweep_end_le we _ ws f hf⟩

theorem C2_completeness_witness :
    ((∃ f ∈ filterOne 0 100 [((10 : Int), (20 : Int))], f.1 ≤ 15 ∧ (15 : Int) < f.2) ∨
      (∃ b ∈ [((10 : Int), (20 : Int))], b.1 ≤ 15 ∧ (15 : Int) < b.2)) ∧
    (∀ f ∈ filterOne 0 100 [((10 : Int), (20 : Int))], (0 : Int) ≤ f.1 ∧ f.2 ≤ 100) :=
  ⟨(C2_completeness 0 100 [(10, 20)]).1 15 (by decide) (by decide),
    (C2_completeness 0 100 [(10, 20)]).2⟩

/-- C8.  The single-pass cursor walk equals merge-then-subtract: for every
    window and every set of well-formed busy periods, the computed free
    slots coincide with first coalescing all busy periods (across sources)
    into a disjoint set and then subtracting it from the window; in
    particular busy `[10:00, 12:00]` and `[11:00, 13:00]` inside window
    `[09:00, 17:00]` leave exactly `[09:00, 10:00]` and `[13:00, 17:00]`. -/
theorem C8_merge_equivalence :
    (∀ (ws we : Int) (pb : List (Int × Int)), (∀ b ∈ pb, b.1 < b.2) →
      filterOne ws we pb = specMergeSubtract ws we pb) ∧
    filterOne (dayAt 4 9) (dayAt 4 17)
        [(dayAt 4 10, dayAt 4 12), (dayAt 4 11, dayAt 4 13)] =
      [(dayAt 4 9, dayAt 4 10), (dayAt 4 13, dayAt 4 17)] := by
  constructor
  · intro ws we pb hval
    exact filterOne_eq_specMergeSubtract ws we pb
      (fun b hb => le_of_lt (hval b hb))
  · decide

instance {ε α : Type} [DecidableEq ε] [DecidableEq α] :
    DecidableEq (Except ε α) := fun x y =>
  match x, y with
  | .error a, .error b =>
    if h : a = b then .isTrue (by rw [h])
    else .isFalse (fun hh => h (by injection hh))
  | .error _, .ok _ => .isFalse (fun hh => Except.noConfusion hh)
  | .ok _, .error _ => .isFalse (fun hh => Except.noConfusion hh)
  | .ok a, .ok b =>
    if h : a = b then .isTrue (by rw [h])
    else .isFalse (fun hh => h (by injection hh))

/-- A looked-up value belongs to the association list under its key. -/
theorem lookup_eq_some_mem {β : Type} (l : List (String × β)) (k : String)
    (v : β) : List.lookup k l = some v → (k, v) ∈ l := by
  induction l with
  | nil => intro h; cases h
  | cons e rest ih =>
    intro h
    rw [List.lookup] at h
    cases hk : k == e.1 with
    | true =>
      simp only [hk] at h
      injection h with h
      have hke : k = e.1 := by simpa using hk
      subst hke
      subst h
      simp
    | false =>
      simp only [hk] at h
      exact List.mem_cons_of_mem _ (ih h)

/-- Well-formedness of a raw busy pair: whenever both stamps parse, the
    start instant precedes the end instant (the `TimeInterval` invariant of
    the data model). -/
def rawWellFormed : RawTime → RawTime → Prop
  | .ok a, .ok b => a < b
  | _, _ => True

instance : ∀ x y : RawTime, Decidable (rawWellFormed x y) := by
  intro x y
  cases x <;> cases y <;> (unfold rawWellFormed; infer_instance)

/-- C7.  Working-window generation: a successful run returns exactly one
    window per calendar day of the inclusive range whose weekday is a
    working day, namely the day's localized working hours converted to UTC
    (by the monotone conversion `tzf`; identity when no timezone is given),
    clamped to the range with empty windows dropped; the list is
    chronologically ordered and mutually non-overlapping. -/
theorem C7_window_generation (st et hs he : Int) (wd : List Int)
    (tzf : Int → Int) (l : List (Int × Int)) (hmono : Monotone tzf)
    (hok : genSlotsE st et hs he wd tzf = .ok l) :
    l = specWindows st et hs he wd tzf ∧
    l.Pairwise (fun a b => a.2 ≤ b.1) ∧ ∀ w ∈ l, w.1 < w.2 := by
  refine ⟨genSlotsAux_ok_eq st et hs he wd tzf _ l hok,
    genSlotsAux_ok_pairwise st et hs he wd tzf hmono _ l
      (genDays_pairwise _ _) hok, ?_⟩
  intro w hw
  obtain ⟨_, _, _, _, hpos⟩ :=
    genSlotsAux_ok_mem st et hs he wd tzf _ l hok w hw
  exact hpos

theorem C7_window_generation_witness :
    [((378000 : Int), (406800 : Int))] =
      specWindows 345600 432000 9 17 [0, 1, 2, 3, 4] id ∧
    List.Pairwise (fun a b : Int × Int => a.2 ≤ b.1)
      [((378000 : Int), (406800 : Int))] ∧
    ∀ w ∈ [((378000 : Int), (406800 : Int))], w.1 < w.2 :=
  C7_window_generation 345600 432000 9 17 [0, 1, 2, 3, 4] id
    [(378000, 406800)] monotone_id (by decide)

/-- C3 (amended).  For every free slot of a successful run,
    `duration_minutes` is the floor of the slot length in minutes; the slot
    is non-empty, so the duration is non-negative, and it is at least 1 for
    any slot of at least one minute — but a clamped sub-minute slot gets
    duration 0. -/
theorem C3_duration (resp : List (String × List (RawTime × RawTime)))
    (calendarIds : Option (List String)) (startTime endTime : Option Int)
    (hs he : Int) (wdOpt : Option (List Int)) (tz : Option (Int → Int))
    (now : Int) (r : AvailResult)
    (hok : getAvailability resp calendarIds startTime endTime hs he wdOpt tz
      now = .ok r) :
    ∀ s ∈ r.freeSlots, s.dur = (s.stop - s.start).fdiv 60 ∧
      s.start < s.stop ∧ 0 ≤ s.dur ∧ (60 ≤ s.stop - s.start → 1 ≤ s.dur) := by
  intro s hs'
  obtain ⟨_, _, wslots, fs, _, hfil, hr⟩ :=
    getAvailability_ok_inv resp calendarIds startTime endTime hs he wdOpt tz
      now r hok
  subst hr
  simp only [List.mem_map] at hs'
  obtain ⟨p, hp, hsp⟩ := hs'
  have hpos : p.1 < p.2 := by
    rcases filterBusyE_ok_inv wslots _ fs hfil with ⟨_, hfs⟩ | ⟨pb, _, hfs⟩
    · subst hfs; cases hp
    · subst hfs
      obtain ⟨w, _, hpw⟩ := List.mem_flatMap.mp hp
      exact sweep_pos _ _ _ p hpw
  subst hsp
  have hlen : (0 : Int) ≤ p.2 - p.1 := by omega
  constructor
  · show durMinutes p.1 p.2 = (p.2 - p.1).fdiv 60
    unfold durMinutes
    rw [Int.tdiv_eq_ediv hlen (by norm_num), Int.fdiv_eq_ediv _ (by norm_num)]
  refine ⟨hpos, ?_, ?_⟩
  · show (0 : Int) ≤ durMinutes p.1 p.2
    unfold durMinutes
    exact Int.tdiv_nonneg hlen (by norm_num)
  · intro h60
    have h60' : (60 : Int) ≤ p.2 - p.1 := h60
    show (1 : Int) ≤ durMinutes p.1 p.2
    unfold durMinutes
    rw [Int.tdiv_eq_ediv hlen (by norm_num)]
    rw [Int.le_ediv_iff_mul_le (by norm_num)]
    omega

theorem C3_duration_witness :
    (Slot.mk 378000 406800 480).dur =
        ((Slot.mk 378000 406800 480).stop -
          (Slot.mk 378000 406800 480).start).fdiv 60 ∧
      (Slot.mk 378000 406800 480).start < (Slot.mk 378000 406800 480).stop ∧
      0 ≤ (Slot.mk 378000 406800 480).dur ∧
      (60 ≤ (Slot.mk 378000 406800 480).stop -
          (Slot.mk 378000 406800 480).start →
        1 ≤ (Slot.mk 378000 406800 480).dur) :=
  C3_duration [] none (some 345600) (some 432000) 9 17 none none 0
    (AvailResult.mk [Slot.mk 378000 406800 480] [] 9 17 [0, 1, 2, 3, 4]
      345600 432000) (by decide)
    (Slot.mk 378000 406800 480) (by decide)

theorem C3_counterexample :
    getAvailability [] none (some 378000) (some 378030) 9 17 none none 0 =
      .ok (AvailResult.mk [Slot.mk 378000 378030 0] [] 9 17 [0, 1, 2, 3, 4]
        378000 378030) := by
  decide

/-- With a reversed date range (`range_end <= range_start`), every generated
    window is clamped empty and dropped, so generation yields no slots. -/
theorem genSlotsAux_reversed_range (st et hs he : Int) (wd : List Int)
    (tzf : Int → Int) (hhs : hourOk hs) (hhe : hourOk he) (hre : et ≤ st) :
    ∀ ds : List Int, genSlotsAux st et hs he wd tzf ds = .ok [] := by
  intro ds
  induction ds with
  | nil => rfl
  | cons d ds ih =>
    simp only [genSlotsAux]
    by_cases hwd : weekday d ∈ wd
    · rw [if_pos hwd, if_pos (And.intro hhs hhe), ih]
      have hse : ¬ max (tzf (dayAt d hs)) st < min (tzf (dayAt d he)) et := by
        have h1 : st ≤ max (tzf (dayAt d hs)) st := le_max_right _ _
        have h2 : min (tzf (dayAt d he)) et ≤ et := min_le_right _ _
        omega
      simp [hse]
    · rw [if_neg hwd, ih]

/-- C4 (amended).  `get_availability` raises a validation error exactly when
    `hour_start >= hour_end` or some `working_days` value lies outside
    `[0, 6]`; a reversed date range (`range_end <= range_start`) is NOT
    validated — such a request (with otherwise valid parameters) succeeds
    and returns a result with no free slots. -/
theorem C4_validation :
    (∀ (resp : List (String × List (RawTime × RawTime)))
      (calendarIds : Option (List String)) (startTime endTime : Option Int)
      (hs he : Int) (wdOpt : Option (List Int)) (tz : Option (Int → Int))
      (now : Int),
      (∃ m, getAvailability resp calendarIds startTime endTime hs he wdOpt tz
          now = .error (.valErr m)) ↔
        (he ≤ hs ∨ ∃ d ∈ wdOpt.getD [0, 1, 2, 3, 4], d < 0 ∨ 6 < d)) ∧
    (∀ (resp : List (String × List (RawTime × RawTime)))
      (calendarIds : Option (List String)) (st et : Int)
      (hs he : Int) (wdOpt : Option (List Int)) (tz : Option (Int → Int))
      (now : Int),
      hourOk hs → hourOk he → hs < he →
      (∀ d ∈ wdOpt.getD [0, 1, 2, 3, 4], 0 ≤ d ∧ d ≤ 6) →
      et ≤ st →
      ∃ r, getAvailability resp calendarIds (some st) (some et) hs he wdOpt tz
          now = .ok r ∧ r.freeSlots = []) := by
  constructor
  · intro resp calendarIds startTime endTime hs he wdOpt tz now
    constructor
    · rintro ⟨m, hm⟩
      simp only [getAvailability] at hm
      split at hm
      · rename_i h; exact Or.inl h
      · split at hm
        · rename_i h; exact Or.inr h
        · split at hm
          · cases hm
          · split at hm
            · cases hm
            · cases hm
    · intro h
      by_cases hvh : he ≤ hs
      · refine ⟨"working_hours_start must be less than working_hours_end", ?_⟩
        simp only [getAvailability, if_pos hvh]
      · rcases h with h | h
        · exact absurd h hvh
        · refine ⟨"working_days must contain values between 0-6 (Monday=0, Sunday=6)", ?_⟩
          simp only [getAvailability, if_neg hvh]
          rw [dif_pos h]
  · intro resp calendarIds st et hs he wdOpt tz now hhs hhe hvh hwd hre
    have hgen : genSlotsE st et hs he (wdOpt.getD [0, 1, 2, 3, 4])
        (tz.getD id) = .ok [] :=
      genSlotsAux_reversed_range st et hs he _ _ hhs hhe hre _
    have hwd' : ¬ ∃ d ∈ wdOpt.getD [0, 1, 2, 3, 4], d < 0 ∨ 6 < d := by
      rintro ⟨d, hd, hout⟩
      have := hwd d hd
      omega
    refine ⟨{ freeSlots := []
              busyPeriods := collectBusy resp (calendarIds.getD ["primary"])
              whStart := hs
              whEnd := he
              whDays := wdOpt.getD [0, 1, 2, 3, 4]
              rangeStart := st
              rangeEnd := et }, ?_, rfl⟩
    simp only [getAvailability, if_neg (not_le.mpr hvh)]
    rw [dif_neg hwd']
    rw [Option.getD_some, Option.getD_some]
    rw [hgen]
    rfl

theorem C4_counterexample :
    getAvailability [] none (some 100) (some 0) 9 17 none none 0 =
      .ok (AvailResult.mk [] [] 9 17 [0, 1, 2, 3, 4] 100 0) := by
  decide

theorem C4_validation_witness :
    ((∃ m, getAvailability [] none none none 17 9 none none 0 =
        .error (.valErr m)) ↔
      ((9 : Int) ≤ 17 ∨ ∃ d ∈ [0, 1, 2, 3, 4], d < (0 : Int) ∨ 6 < d)) ∧
    ∃ r, getAvailability [] none (some 100) (some 50) 9 17 none none 0 =
        .ok r ∧ r.freeSlots = [] :=
  ⟨C4_validation.1 [] none none none 17 9 none none 0,
    C4_validation.2 [] none 100 50 9 17 none none 0 (by decide) (by decide)
      (by decide) (by decide) (by decide)⟩

/-- Transfer of the data-model invariant from the raw response to the parsed
    busy pairs: every successfully parsed pair of a well-formed response has
    `start < end`. -/
theorem parsed_busy_wellFormed (resp : List (String × List (RawTime × RawTime)))
    (cids : List String) (pb : List (Int × Int))
    (hbusy : ∀ e ∈ resp, ∀ p ∈ e.2, rawWellFormed p.1 p.2)
    (hpb : parseBusyList (collectBusy resp cids) = .ok pb) :
    ∀ p ∈ pb, p.1 < p.2 := by
  intro p hp
  obtain ⟨bo, hbo, hbs, hbe⟩ := parseBusyList_ok_mem _ pb hpb p hp
  obtain ⟨cid, _, rawp, hrawp, hboeq⟩ := collectBusy_mem resp cids bo hbo
  rcases hlk : List.lookup cid resp with _ | lst
  · rw [hlk] at hrawp
    cases hrawp
  · rw [hlk] at hrawp
    simp only [Option.getD_some] at hrawp
    have hmem := lookup_eq_some_mem resp cid lst hlk
    have hwf := hbusy (cid, lst) hmem rawp hrawp
    subst hboeq
    simp only at hbs hbe
    rw [hbs, hbe] at hwf
    exact hwf

/-- C5.  Ordering: for every request whose busy periods satisfy the
    `TimeInterval` invariant (`start < end` whenever both stamps parse) and
    whose timezone conversion is monotone, the final concatenated free-slot
    list is strictly ordered and mutually non-overlapping: each slot ends no
    later than the next begins. -/
theorem C5_ordering (resp : List (String × List (RawTime × RawTime)))
    (calendarIds : Option (List String)) (startTime endTime : Option Int)
    (hs he : Int) (wdOpt : Option (List Int)) (tz : Option (Int → Int))
    (now : Int) (r : AvailResult)
    (htz : ∀ f, tz = some f → Monotone f)
    (hbusy : ∀ e ∈ resp, ∀ p ∈ e.2, rawWellFormed p.1 p.2)
    (hok : getAvailability resp calendarIds startTime endTime hs he wdOpt tz
      now = .ok r) :
    List.Chain' (fun s t : Slot => s.stop ≤ t.start) r.freeSlots := by
  obtain ⟨_, _, wslots, fs, hgen, hfil, hr⟩ :=
    getAvailability_ok_inv resp calendarIds startTime endTime hs he wdOpt tz
      now r hok
  subst hr
  show List.Chain' _ (List.map _ fs)
  rw [List.chain'_map]
  rcases filterBusyE_ok_inv wslots _ fs hfil with ⟨_, hfs⟩ | ⟨pb, hpb, hfs⟩
  · subst hfs
    exact List.chain'_nil
  · subst hfs
    have hpbval : ∀ p ∈ pb, p.1 < p.2 :=
      parsed_busy_wellFormed resp _ pb hbusy hpb
    have hmono : Monotone (tz.getD id) := by
      cases tz with
      | none => exact monotone_id
      | some f => exact htz f rfl
    have hpw := genSlotsAux_ok_pairwise _ _ hs he _ _ hmono _ wslots
      (genDays_pairwise _ _) hgen
    apply chain'_flatMap_windows (fun w => filterOne w.1 w.2 pb) wslots hpw
    · intro w _
      apply sweep_chain
      intro b hb
      rw [mem_insertionSort_iff] at hb
      exact le_of_lt (hpbval b (List.mem_filter.mp hb).1)
    · intro w _ x hx
      exact ⟨sweep_start_ge _ _ _ x hx, sweep_end_le _ _ _ x hx⟩

theorem C5_ordering_witness :
    List.Chain' (fun s t : Slot => s.stop ≤ t.start)
      [Slot.mk 378000 381600 60, Slot.mk 385200 396000 180,
        Slot.mk 399600 406800 120] := by
  have h := C5_ordering
    [("primary", [(.ok 381600, .ok 385200), (.ok 396000, .ok 399600)])]
    none (some 345600) (some 432000) 9 17 none none 0
    (AvailResult.mk
      [Slot.mk 378000 381600 60, Slot.mk 385200 396000 180,
        Slot.mk 399600 406800 120]
      [BusyOut.mk (.ok 381600) (.ok 385200) "primary",
        BusyOut.mk (.ok 396000) (.ok 399600) "primary"]
      9 17 [0, 1, 2, 3, 4] 345600 432000)
    (fun f hf => nomatch hf) (by decide) (by decide)
  exact h

/-- When every raw stamp of the busy list is parseable, the busy filter
    succeeds on any slot list. -/
theorem filterBusyE_ok_of_parseable (wslots : List (Int × Int))
    (busy : List BusyOut)
    (h : ∀ bo ∈ busy, (∃ a, bo.start = .ok a) ∧ (∃ b, bo.stop = .ok b)) :
    ∃ fs, filterBusyE wslots busy = .ok fs := by
  cases wslots with
  | nil => exact ⟨[], rfl⟩
  | cons w ws =>
    obtain ⟨pb, hpb⟩ := parseBusyList_ok_of_parseable busy h
    refine ⟨(w :: ws).flatMap (fun v => filterOne v.1 v.2 pb), ?_⟩
    simp only [filterBusyE, hpb]

/-- C6 (amended).  Busy periods with `start >= end` are not rejected: the
    engine performs no interval-orientation validation, and any request with
    valid hours/days and parseable busy stamps succeeds regardless of busy
    interval orientation — the reversed intervals participate in the
    computation. -/
theorem C6_no_rejection (resp : List (String × List (RawTime × RawTime)))
    (calendarIds : Option (List String)) (startTime endTime : Option Int)
    (hs he : Int) (wdOpt : Option (List Int)) (tz : Option (Int → Int))
    (now : Int)
    (hhs : hourOk hs) (hhe : hourOk he) (hvh : hs < he)
    (hwd : ∀ d ∈ wdOpt.getD [0, 1, 2, 3, 4], 0 ≤ d ∧ d ≤ 6)
    (hparse : ∀ e ∈ resp, ∀ p ∈ e.2,
      (∃ a, p.1 = .ok a) ∧ (∃ b, p.2 = .ok b)) :
    ∃ r, getAvailability resp calendarIds startTime endTime hs he wdOpt tz
      now = .ok r := by
  have hwd' : ¬ ∃ d ∈ wdOpt.getD [0, 1, 2, 3, 4], d < 0 ∨ 6 < d := by
    rintro ⟨d, hd, hout⟩
    have := hwd d hd
    omega
  obtain ⟨wl, hgen⟩ : ∃ wl, genSlotsE
      (startTime.getD (now.fdiv 86400 * 86400))
      (endTime.getD (startTime.getD (now.fdiv 86400 * 86400) + 7 * 86400))
      hs he (wdOpt.getD [0, 1, 2, 3, 4]) (tz.getD id) = .ok wl :=
    genSlotsAux_ok_of_hourOk _ _ hs he _ _ hhs hhe _
  have hbp : ∀ bo ∈ collectBusy resp (calendarIds.getD ["primary"]),
      (∃ a, bo.start = .ok a) ∧ (∃ b, bo.stop = .ok b) := by
    intro bo hbo
    obtain ⟨cid, _, rawp, hrawp, hboeq⟩ := collectBusy_mem resp _ bo hbo
    rcases hlk : List.lookup cid resp with _ | lst
    · rw [hlk] at hrawp
      cases hrawp
    · rw [hlk] at hrawp
      simp only [Option.getD_some] at hrawp
      have hmem := lookup_eq_some_mem resp cid lst hlk
      have := hparse (cid, lst) hmem rawp hrawp
      subst hboeq
      exact this
  obtain ⟨fs, hfil⟩ := filterBusyE_ok_of_parseable wl _ hbp
  refine ⟨{ freeSlots := fs.map (fun p => ⟨p.1, p.2, durMinutes p.1 p.2⟩)
            busyPeriods := collectBusy resp (calendarIds.getD ["primary"])
            whStart := hs
            whEnd := he
            whDays := wdOpt.getD [0, 1, 2, 3, 4]
            rangeStart := startTime.getD (now.fdiv 86400 * 86400)
            rangeEnd := endTime.getD
              (startTime.getD (now.fdiv 86400 * 86400) + 7 * 86400) }, ?_⟩
  simp only [getAvailability, if_neg (not_le.mpr hvh)]
  rw [dif_neg hwd']
  rw [← collectBusy_def resp (calendarIds.getD ["primary"])]
  rw [hgen]
  simp only [hfil]

theorem C6_counterexample :
    getAvailability [("primary", [(.ok 388800, .ok 385200)])] none
        (some 345600) (some 417600) 9 17 none none 0 =
      .ok (AvailResult.mk
        [Slot.mk 378000 388800 180, Slot.mk 385200 406800 360]
        [BusyOut.mk (.ok 388800) (.ok 385200) "primary"]
        9 17 [0, 1, 2, 3, 4] 345600 417600) := by
  decide

theorem C6_no_rejection_witness :
    ∃ r, getAvailability [("primary", [(.ok 406800, .ok 378000)])] none
      (some 345600) (some 417600) 9 17 none none 0 = .ok r :=
  C6_no_rejection [("primary", [(.ok 406800, .ok 378000)])] none
    (some 345600) (some 417600) 9 17 none none 0
    (by decide) (by decide) (by decide) (by decide)
    (by
      intro e he p hp
      simp only [List.mem_singleton] at he
      subst he
      simp only [List.mem_singleton] at hp
      subst hp
      exact ⟨⟨406800, rfl⟩, ⟨378000, rfl⟩⟩)

theorem C8_merge_equivalence_witness :
    (∀ b ∈ [((381600 : Int), (388800 : Int)), ((385200 : Int), (392400 : Int))],
      b.1 < b.2) ∧
    filterOne 378000 406800 [(381600, 388800), (385200, 392400)] =
      specMergeSubtract 378000 406800 [(381600, 388800), (385200, 392400)] :=
  ⟨by decide,
    C8_merge_equivalence.1 378000 406800 [(381600, 388800), (385200, 392400)]
      (by decide)⟩

/-- C9 (amended).  When the range start is given, the output is a pure
    function of the inputs: the ambient clock is never consulted, so two
    invocations with identical inputs under different clocks return
    identical results.  (With the range start unset, the default is derived
    from the current day and the output depends on the clock — see the
    counterexample.) -/
theorem C9_determinism (resp : List (String × List (RawTime × RawTime)))
    (calendarIds : Option (List String)) (stv : Int) (endTime : Option Int)
    (hs he : Int) (wdOpt : Option (List Int)) (tz : Option (Int → Int))
    (now1 now2 : Int) :
    getAvailability resp calendarIds (some stv) endTime hs he wdOpt tz now1 =
      getAvailability resp calendarIds (some stv) endTime hs he wdOpt tz
        now2 := rfl

theorem C9_counterexample :
    getAvailability [] none none none 9 17 none none 0 ≠
      getAvailability [] none none none 9 17 none none 604800 := by
  intro h
  have h2 := congrArg (fun x => (Except.toOption x).map AvailResult.rangeStart) h
  exact absurd h2 (by decide)

/-- C10.  Error channeling: once parameter validation has passed, every
    failure — a malformed busy-period timestamp included — aborts the whole
    request as a single generic error whose message carries the
    `Failed to get availability: ` prefix (so failure kinds are not
    distinguishable by error type), while validation failures surface as
    `ValueError`-style validation errors. -/
theorem C10_error_wrapping :
    (∀ (resp : List (String × List (RawTime × RawTime)))
      (calendarIds : Option (List String)) (startTime endTime : Option Int)
      (hs he : Int) (wdOpt : Option (List Int)) (tz : Option (Int → Int))
      (now : Int) (e : Err),
      hs < he → (∀ d ∈ wdOpt.getD [0, 1, 2, 3, 4], 0 ≤ d ∧ d ≤ 6) →
      getAvailability resp calendarIds startTime endTime hs he wdOpt tz now
        = .error e →
      ∃ m, e = .genErr ("Failed to get availability: " ++ m)) ∧
    (∀ (resp : List (String × List (RawTime × RawTime)))
      (calendarIds : Option (List String)) (startTime endTime : Option Int)
      (hs he : Int) (wdOpt : Option (List Int)) (tz : Option (Int → Int))
      (now : Int),
      (he ≤ hs ∨ ∃ d ∈ wdOpt.getD [0, 1, 2, 3, 4], d < 0 ∨ 6 < d) →
      ∃ m, getAvailability resp calendarIds startTime endTime hs he wdOpt tz
        now = .error (.valErr m)) := by
  constructor
  · intro resp calendarIds startTime endTime hs he wdOpt tz now e hvh hwd herr
    simp only [getAvailability] at herr
    split at herr
    · rename_i h
      exact absurd hvh (not_lt.mpr h)
    · split at herr
      · rename_i h
        obtain ⟨d, hd, hout⟩ := h
        have := hwd d hd
        omega
      · split at herr
        · rename_i m _
          injection herr with herr
          exact ⟨m, herr.symm⟩
        · split at herr
          · rename_i m _
            injection herr with herr
            exact ⟨m, herr.symm⟩
          · cases herr
  · intro resp calendarIds startTime endTime hs he wdOpt tz now h
    by_cases hvh : he ≤ hs
    · refine ⟨"working_hours_start must be less than working_hours_end", ?_⟩
      simp only [getAvailability, if_pos hvh]
    · rcases h with h | h
      · exact absurd h hvh
      · refine ⟨"working_days must contain values between 0-6 (Monday=0, Sunday=6)", ?_⟩
        simp only [getAvailability, if_neg hvh]
        rw [dif_pos h]

theorem C10_error_wrapping_witness :
    (∃ m, (Err.genErr "Failed to get availability: Invalid isoformat string") =
      .genErr ("Failed to get availability: " ++ m)) ∧
    ∃ m, getAvailability [] none none none 17 9 none none 0 =
      .error (.valErr m) :=
  ⟨C10_error_wrapping.1
      [("primary", [(.bad "Invalid isoformat string", .ok 0)])] none
      (some 345600) (some 432000) 9 17 none none 0
      (.genErr "Failed to get availability: Invalid isoformat string")
      (by decide) (by decide) (by decide),
    C10_error_wrapping.2 [] none none none 17 9 none none 0
      (Or.inl (by decide))⟩

end Availability
